import Mathlib

/-!
Shallow embedding of the orla-tool-fs repository (Go) in Lean 4.

The repository exposes nine file-system operations (read, write, list,
exists, stat, mkdir, rm, mv, cp), each of which validates its arguments,
resolves the user-supplied path (environment-variable and home-directory
expansion followed by lexical cleaning), performs one host file-system
call, and shapes the outcome into a uniform result mapping built by
mcpError / mcpSuccess (package internal/fs, file fs.go).  The command
dispatcher (cmd/fs/main.go) prints the result and chooses the process
exit status from the "success" field.

Modelling conventions:
  - A Go "map[string]any" result is an association list (Res below);
    lookups take the first matching key, mirroring a Go map in which
    every key is written at most once.
  - Go strings used as paths are Lean Strings; file CONTENT is a list
    of byte values (List Nat), because Go strings are byte sequences and
    the read operation validates UTF-8 at the byte level.
  - The host file system is a World: a finite map from cleaned path
    strings to nodes, plus a set of paths on which the host reports
    permission errors (an abstract model of host permission
    enforcement), plus the process environment (variable values and the
    home directory, the latter fallible exactly like os.UserHomeDir).
  - The root directory "/" and the current directory "." always exist
    as directories, as on a real host.
  - Host primitives (os.Stat, os.ReadFile, os.WriteFile, os.Mkdir,
    os.MkdirAll, os.Remove, os.RemoveAll, os.Rename, the copy helper)
    are modelled as pure functions on the World returning either a
    value or an error carrying an error kind (not-exist / permission /
    other, mirroring os.IsNotExist and os.IsPermission) and a message.
-/

/-- A dynamic value stored in a result mapping (the Go "any"). -/
inductive Value where
  | str (s : String)
  | bool (b : Bool)
  | int (n : Int)
  | bytes (bs : List Nat)
  | entries (l : List (List (String × String)))
deriving DecidableEq

/-- A result mapping, the Go "map[string]any" returned by every operation. -/
def Res : Type := List (String × Value)

instance : DecidableEq Res := by
  unfold Res
  infer_instance

/-- Go map indexing: first binding of the key wins (keys are unique in practice). -/
def getV : Res → String → Option Value
  | [], _ => none
  | (k, v) :: rest, key => if k = key then some v else getV rest key

/-- The list of keys of a result mapping. -/
def keysOf (r : Res) : List String := r.map Prod.fst

/-- mcpError from fs.go: sets the success flag to false and returns the error. -/
def mcpError (msg : String) : Res :=
  [("error", .str msg), ("success", .bool false)]

/-- mcpSuccess from fs.go: sets the success flag to true and adds the given
name-value pairs.  (The dynamic arity/type checks of the Go variadic
function cannot fail here because the pair list is well-typed by
construction; every call site in fs.go passes an even, string-keyed list.) -/
def mcpSuccess (pairs : List (String × Value)) : Res :=
  ("success", .bool true) :: pairs

/-! ### Lexical path cleaning (model of path/filepath.Clean, unix rules)

filepath.Clean processes a path segment by segment: empty and "."
segments are dropped, ".." pops the previously kept segment when
possible, cannot escape the root of a rooted path, and is kept at the
front of a relative path.  The model splits on '/', runs that stack
algorithm, and reassembles. -/

/-- The ".." segment. -/
def dd : List Char := ['.', '.']

/-- Helper for splitting on '/': the first segment and the remaining ones. -/
def splitSegsA : List Char → List Char × List (List Char)
  | [] => ([], [])
  | c :: cs =>
    if c = '/' then ([], (splitSegsA cs).1 :: (splitSegsA cs).2)
    else (c :: (splitSegsA cs).1, (splitSegsA cs).2)

/-- Split a character list on '/' keeping empty segments (like String.splitOn "/"). -/
def splitSegs (cs : List Char) : List (List Char) :=
  (splitSegsA cs).1 :: (splitSegsA cs).2

/-- Join segments with '/'. -/
def joinSegs : List (List Char) → List Char
  | [] => []
  | [s] => s
  | s :: rest => s ++ '/' :: joinSegs rest

/-- The stack pass of filepath.Clean: acc holds the kept segments in
reverse order; ".." pops a kept segment, is dropped at the root of a
rooted path, and accumulates at the bottom of a relative path. -/
def ddStep (rooted : Bool) (acc : List (List Char)) : List (List Char) :=
  match acc with
  | [] => if rooted then [] else [dd]
  | a :: as => if a = dd then dd :: a :: as else as

def cleanRun (rooted : Bool) : List (List Char) → List (List Char) → List (List Char)
  | acc, [] => acc.reverse
  | acc, s :: rest =>
    if s = [] ∨ s = ['.'] then cleanRun rooted acc rest
    else if s = dd then cleanRun rooted (ddStep rooted acc) rest
    else cleanRun rooted (s :: acc) rest

/-- filepath.Clean on character lists (unix separator). -/
def cleanChars (cs : List Char) : List Char :=
  let rooted : Bool := decide (cs.head? = some '/')
  let out := cleanRun rooted [] (splitSegs cs)
  if rooted then '/' :: joinSegs out
  else if out = [] then ['.'] else joinSegs out

/-- filepath.Clean (model). -/
def clean (p : String) : String := String.mk (cleanChars p.data)

/-- filepath.Dir (model): everything up to and including the final '/',
then cleaned; Dir of a slashless path is ".". -/
def dirPath (p : String) : String :=
  clean (String.mk ((p.data.reverse.dropWhile (fun c => c ≠ '/')).reverse))

/-- filepath.Base (model): strip trailing slashes, take the last element;
Base "" is "." and Base of only slashes is "/". -/
def basePath (p : String) : String :=
  if p = "" then "."
  else
    let cs := p.data.reverse.dropWhile (fun c => c = '/')
    if cs = [] then "/" else String.mk ((cs.takeWhile (fun c => c ≠ '/')).reverse)

/-- strings.HasPrefix (model; character-list level so that the kernel
can evaluate it). -/
def strStartsWith (s pre : String) : Bool := pre.data.isPrefixOf s.data

/-- Drop the first n characters of a string (character-list level). -/
def strDrop (s : String) (n : Nat) : String := String.mk (s.data.drop n)

/-- Is sub an infix of l (chars)?  Model of the substring search behind
strings.Contains. -/
def hasInfix : List Char → List Char → Bool
  | l, sub =>
    if sub.isPrefixOf l then true
    else
      match l with
      | [] => false
      | _ :: rest => hasInfix rest sub

/-- strings.Contains (model). -/
def strContains (s sub : String) : Bool := hasInfix s.data sub.data

/-- Is q strictly inside the directory p (q begins with "p/")? -/
def underStr (p q : String) : Bool :=
  strStartsWith q (if p = "/" then "/" else p ++ "/") ∧ q ≠ p

/-- Is q a direct child of directory p? -/
def isDirectChild (p q : String) : Bool :=
  let pre := if p = "/" then "/" else p ++ "/"
  strStartsWith q pre ∧ q ≠ p ∧ (strDrop q pre.length) ≠ "" ∧
    ¬(strDrop q pre.length).data.contains '/'

/-- The path of q relative to the listed root p, for q below p
(model of filepath.Rel in the only situation the list walk meets). -/
def relPath (p q : String) : String :=
  strDrop q (if p = "/" then 1 else p.length + 1)

instance {α β : Type} [DecidableEq α] [DecidableEq β] : DecidableEq (Except α β) :=
  fun a b =>
  match a, b with
  | .error x, .error y =>
    if h : x = y then .isTrue (by rw [h]) else .isFalse (by simp [h])
  | .error _, .ok _ => .isFalse (by simp)
  | .ok _, .error _ => .isFalse (by simp)
  | .ok x, .ok y =>
    if h : x = y then .isTrue (by rw [h]) else .isFalse (by simp [h])

/-! ### Environment expansion (model of os.ExpandEnv / os.Expand) -/

/-- Go isShellSpecialVar. -/
def isShellSpecialVar (c : Char) : Bool :=
  c = '*' ∨ c = '#' ∨ c = '$' ∨ c = '@' ∨ c = '!' ∨ c = '?' ∨ c = '-' ∨
  ('0' ≤ c ∧ c ≤ '9')

/-- Go isAlphaNum (byte version; ASCII only, multi-byte runes never match). -/
def isAlphaNumGo (c : Char) : Bool :=
  c = '_' ∨ ('a' ≤ c ∧ c ≤ 'z') ∨ ('A' ≤ c ∧ c ≤ 'Z') ∨ ('0' ≤ c ∧ c ≤ '9')

/-- Go getShellName: the variable reference that starts right after a '$',
together with the number of characters it consumes.  An empty name with a
positive width is invalid syntax that is eaten; an empty name with width
zero leaves the dollar sign untouched. -/
def getShellName : List Char → List Char × Nat
  | [] => ([], 0)
  | '{' :: rest =>
    match rest with
    | c1 :: c2 :: _ =>
      if isShellSpecialVar c1 ∧ c2 = '}' then ([c1], 3)
      else
        let pre := rest.takeWhile (fun c => c ≠ '}')
        if pre.length = rest.length then ([], 1)
        else if pre = [] then ([], 2)
        else (pre, pre.length + 2)
    | _ =>
      let pre := rest.takeWhile (fun c => c ≠ '}')
      if pre.length = rest.length then ([], 1)
      else if pre = [] then ([], 2)
      else (pre, pre.length + 2)
  | c :: rest =>
    if isShellSpecialVar c then ([c], 1)
    else
      let name := (c :: rest).takeWhile isAlphaNumGo
      (name, name.length)

/-- Go os.Expand with the process environment as mapping: scan for '$',
parse a shell name, and substitute its value ("" for unset variables,
exactly like os.Getenv).  The scan consumes at least one character per
step, so it is driven by fuel bounded by the input length (the zero-fuel
fallback is unreachable from expandChars). -/
def expandCharsF (env : String → String) : Nat → List Char → List Char
  | _, [] => []
  | 0, cs => cs
  | fuel + 1, c :: rest =>
    if c = '$' ∧ rest ≠ [] then
      if (getShellName rest).1 = [] ∧ (getShellName rest).2 > 0 then
        expandCharsF env fuel (rest.drop (getShellName rest).2)
      else if (getShellName rest).1 = [] then c :: expandCharsF env fuel rest
      else (env (String.mk (getShellName rest).1)).data ++
        expandCharsF env fuel (rest.drop (getShellName rest).2)
    else c :: expandCharsF env fuel rest

def expandChars (env : String → String) (cs : List Char) : List Char :=
  expandCharsF env cs.length cs

/-- os.ExpandEnv (model). -/
def expandEnv (env : String → String) (s : String) : String :=
  String.mk (expandChars env s.data)

/-- ExpandPath from fs.go: expand environment variables, then the leading
"~" or "~/" against the (fallible) home directory, and lexically clean
the result on every return path (the deferred filepath.Clean). -/
def ExpandPath (vars : String → String) (home : Except String String) (p : String) :
    Except String String :=
  if strStartsWith (expandEnv vars p) "~/" ∨ expandEnv vars p = "~" then
    match home with
    | .error e => .error ("failed to get home directory: " ++ e)
    | .ok h =>
      if expandEnv vars p = "~" then .ok (clean h)
      else .ok (clean (h ++ strDrop (expandEnv vars p) 1))
  else .ok (clean (expandEnv vars p))

/-! ### UTF-8 validity (model of unicode/utf8.Valid over bytes) -/

/-- A UTF-8 continuation byte. -/
def isCont (b : Nat) : Bool := 0x80 ≤ b ∧ b ≤ 0xBF

/-- unicode/utf8.Valid on a byte sequence: well-formed shortest-form
UTF-8, surrogates excluded, code points at most U+10FFFF. -/
def utf8Valid : List Nat → Bool
  | [] => true
  | b :: rest =>
    if b ≤ 0x7F then utf8Valid rest
    else if 0xC2 ≤ b ∧ b ≤ 0xDF then
      match rest with
      | b1 :: r => isCont b1 && utf8Valid r
      | [] => false
    else if b = 0xE0 then
      match rest with
      | b1 :: b2 :: r => (0xA0 ≤ b1 && b1 ≤ 0xBF) && isCont b2 && utf8Valid r
      | _ => false
    else if 0xE1 ≤ b ∧ b ≤ 0xEC then
      match rest with
      | b1 :: b2 :: r => isCont b1 && isCont b2 && utf8Valid r
      | _ => false
    else if b = 0xED then
      match rest with
      | b1 :: b2 :: r => (0x80 ≤ b1 && b1 ≤ 0x9F) && isCont b2 && utf8Valid r
      | _ => false
    else if 0xEE ≤ b ∧ b ≤ 0xEF then
      match rest with
      | b1 :: b2 :: r => isCont b1 && isCont b2 && utf8Valid r
      | _ => false
    else if b = 0xF0 then
      match rest with
      | b1 :: b2 :: b3 :: r => (0x90 ≤ b1 && b1 ≤ 0xBF) && isCont b2 && isCont b3 && utf8Valid r
      | _ => false
    else if 0xF1 ≤ b ∧ b ≤ 0xF3 then
      match rest with
      | b1 :: b2 :: b3 :: r => isCont b1 && isCont b2 && isCont b3 && utf8Valid r
      | _ => false
    else if b = 0xF4 then
      match rest with
      | b1 :: b2 :: b3 :: r => (0x80 ≤ b1 && b1 ≤ 0x8F) && isCont b2 && isCont b3 && utf8Valid r
      | _ => false
    else false

/-! ### The host world -/

/-- Kind of a host error, as classified by os.IsNotExist / os.IsPermission. -/
inductive ErrKind where
  | notExist
  | permission
  | other
deriving DecidableEq

/-- A host error: a kind plus the message err.Error() would render. -/
structure Err where
  kind : ErrKind
  msg : String
deriving DecidableEq

/-- A file-system node: a directory or a file with byte content,
permission bits and the single modification-time value the host keeps
for os.FileInfo. -/
structure Node where
  isDir : Bool
  content : List Nat
  mode : Nat
  mtime : Int
deriving DecidableEq

/-- The host world: process environment (variable values, fallible home
directory), the file-system map from cleaned paths to nodes, the set of
paths on which the host reports permission errors, and the current time
used for new modification times. -/
structure World where
  vars : String → String
  home : Except String String
  nodes : List (String × Node)
  denied : List String
  clock : Int

/-- Replace the file-system map of a world. -/
def World.setNodes (w : World) (ns : List (String × Node)) : World :=
  ⟨w.vars, w.home, ns, w.denied, w.clock⟩

/-- First binding of a path in the node map. -/
def lookupNode : List (String × Node) → String → Option Node
  | [], _ => none
  | (k, n) :: rest, p => if k = p then some n else lookupNode rest p

/-- Bind a path to a node, dropping any previous binding. -/
def setNode (ns : List (String × Node)) (p : String) (n : Node) : List (String × Node) :=
  (p, n) :: ns.filter (fun e => e.1 ≠ p)

/-- Does directory p have an entry strictly below it? -/
def hasChild (ns : List (String × Node)) (p : String) : Bool :=
  ns.any (fun e => underStr p e.1)

/-- Is p one of the always-existing roots ("/" or ".")? -/
def isRootish (p : String) : Bool := p = "/" ∨ p = "."

/-- The node the host presents for "/" and ".". -/
def rootNode : Node := ⟨true, [], 0o755, 0⟩

/-- os.Stat (model): permission check, then the always-existing roots,
then the node map. -/
def statFs (w : World) (p : String) : Except Err Node :=
  if w.denied.contains p then .error ⟨.permission, "stat " ++ p ++ ": permission denied"⟩
  else if isRootish p then .ok rootNode
  else
    match lookupNode w.nodes p with
    | some n => .ok n
    | none => .error ⟨.notExist, "stat " ++ p ++ ": no such file or directory"⟩

/-- os.ReadFile (model). -/
def readFileFs (w : World) (p : String) : Except Err (List Nat) :=
  if w.denied.contains p then .error ⟨.permission, "open " ++ p ++ ": permission denied"⟩
  else if isRootish p then .error ⟨.other, "read " ++ p ++ ": is a directory"⟩
  else
    match lookupNode w.nodes p with
    | some n =>
      if n.isDir then .error ⟨.other, "read " ++ p ++ ": is a directory"⟩
      else .ok n.content
    | none => .error ⟨.notExist, "open " ++ p ++ ": no such file or directory"⟩

/-- os.WriteFile (model): fails on denied or directory targets or a
missing/non-directory parent; otherwise creates the file with mode 0644
(an existing file keeps its mode) and the current time. -/
def writeFileFs (w : World) (p : String) (c : List Nat) : Except Err (List (String × Node)) :=
  if w.denied.contains p then .error ⟨.permission, "open " ++ p ++ ": permission denied"⟩
  else if isRootish p then .error ⟨.other, "open " ++ p ++ ": is a directory"⟩
  else
    match lookupNode w.nodes p with
    | some n =>
      if n.isDir then .error ⟨.other, "open " ++ p ++ ": is a directory"⟩
      else .ok (setNode w.nodes p ⟨false, c, n.mode, w.clock⟩)
    | none =>
      if isRootish (dirPath p) then .ok (setNode w.nodes p ⟨false, c, 0o644, w.clock⟩)
      else
        match lookupNode w.nodes (dirPath p) with
        | some dn =>
          if dn.isDir then .ok (setNode w.nodes p ⟨false, c, 0o644, w.clock⟩)
          else .error ⟨.other, "open " ++ p ++ ": not a directory"⟩
        | none => .error ⟨.notExist, "open " ++ p ++ ": no such file or directory"⟩

/-- os.Mkdir (model, single level). -/
def mkdirFs (w : World) (p : String) : Except Err (List (String × Node)) :=
  if w.denied.contains p then .error ⟨.permission, "mkdir " ++ p ++ ": permission denied"⟩
  else if isRootish p then .error ⟨.other, "mkdir " ++ p ++ ": file exists"⟩
  else
    match lookupNode w.nodes p with
    | some _ => .error ⟨.other, "mkdir " ++ p ++ ": file exists"⟩
    | none =>
      if isRootish (dirPath p) then .ok (setNode w.nodes p ⟨true, [], 0o755, w.clock⟩)
      else
        match lookupNode w.nodes (dirPath p) with
        | some dn =>
          if dn.isDir then .ok (setNode w.nodes p ⟨true, [], 0o755, w.clock⟩)
          else .error ⟨.other, "mkdir " ++ p ++ ": not a directory"⟩
        | none => .error ⟨.notExist, "mkdir " ++ p ++ ": no such file or directory"⟩

/-- The recursion of os.MkdirAll along parent directories, with explicit
fuel (the recursion depth is bounded by the path length plus two). -/
def mkdirAllFuel (denied : List String) (clk : Int) :
    Nat → List (String × Node) → String → Except Err (List (String × Node))
  | 0, _, p => .error ⟨.other, "mkdir " ++ p ++ ": recursion limit"⟩
  | fuel + 1, ns, p =>
    if isRootish p ∨ p = "" then .ok ns
    else if denied.contains p then .error ⟨.permission, "mkdir " ++ p ++ ": permission denied"⟩
    else
      match lookupNode ns p with
      | some n =>
        if n.isDir then .ok ns else .error ⟨.other, "mkdir " ++ p ++ ": not a directory"⟩
      | none =>
        match mkdirAllFuel denied clk fuel ns (dirPath p) with
        | .error e => .error e
        | .ok ns2 => .ok (setNode ns2 p ⟨true, [], 0o755, clk⟩)

/-- os.MkdirAll (model): create the directory and every missing ancestor. -/
def mkdirAllFs (w : World) (p : String) : Except Err (List (String × Node)) :=
  mkdirAllFuel w.denied w.clock (p.length + 2) w.nodes p

/-- os.Remove (model): single-entry removal; a populated directory
reports the host "directory not empty" message. -/
def removeFs (w : World) (p : String) : Except Err (List (String × Node)) :=
  if w.denied.contains p then .error ⟨.permission, "remove " ++ p ++ ": permission denied"⟩
  else
    match lookupNode w.nodes p with
    | some n =>
      if n.isDir && hasChild w.nodes p then
        .error ⟨.other, "remove " ++ p ++ ": directory not empty"⟩
      else .ok (w.nodes.filter (fun e => e.1 ≠ p))
    | none => .error ⟨.notExist, "remove " ++ p ++ ": no such file or directory"⟩

/-- os.RemoveAll (model): removes the path and its whole subtree;
fails when the path or anything below it is permission-denied. -/
def removeAllFs (w : World) (p : String) : Except Err (List (String × Node)) :=
  if w.denied.contains p ∨ w.denied.any (fun q => underStr p q) then
    .error ⟨.permission, "unlinkat " ++ p ++ ": permission denied"⟩
  else .ok (w.nodes.filter (fun e => ¬(e.1 = p ∨ underStr p e.1)))

/-- Rebase a path from below src to below dst. -/
def rebase (src dst q : String) : String := dst ++ strDrop q src.length

/-- os.Rename (model, coarse): moves the source node and its subtree to
the destination; permission-denied source or destination fails. -/
def renameFs (w : World) (src dst : String) : Except Err (List (String × Node)) :=
  if w.denied.contains src ∨ w.denied.contains dst then
    .error ⟨.permission, "rename " ++ src ++ " " ++ dst ++ ": permission denied"⟩
  else
    .ok ((w.nodes.filter (fun e => ¬(e.1 = src ∨ underStr src e.1))).map id ++
      (w.nodes.filter (fun e => e.1 = src ∨ underStr src e.1)).map
        (fun e => (rebase src dst e.1, e.2)))

/-- The copy helper copyutil.Copy (model, coarse): duplicates the source
node and its subtree at the destination. -/
def copyFs (w : World) (src dst : String) : Except Err (List (String × Node)) :=
  if w.denied.contains src ∨ w.denied.contains dst then
    .error ⟨.permission, "open " ++ src ++ ": permission denied"⟩
  else
    .ok (w.nodes ++
      (w.nodes.filter (fun e => e.1 = src ∨ underStr src e.1)).map
        (fun e => (rebase src dst e.1, e.2)))

/-! ### The operation library (fs.go) -/

/-- itemType from fs.go. -/
def itemType (n : Node) : String := if n.isDir then "directory" else "file"

/-- Read from fs.go. -/
def Read (w : World) (path : String) : Res :=
  if path = "" then mcpError "path is required"
  else
    match ExpandPath w.vars w.home path with
    | .error e => mcpError e
    | .ok p =>
      match statFs w p with
      | .error e =>
        if e.kind = .notExist then mcpError ("file not found: " ++ path)
        else mcpError e.msg
      | .ok info =>
        if info.isDir then mcpError ("path is not a file: " ++ path)
        else
          match readFileFs w p with
          | .error e =>
            if e.kind = .permission then mcpError ("permission denied: " ++ path)
            else mcpError e.msg
          | .ok data =>
            if ¬utf8Valid data then mcpError ("file is not valid UTF-8: " ++ path)
            else mcpSuccess [("content", .bytes data)]

/-- The straight-line tail of Write after the optional MkdirAll: the
os.WriteFile call and result shaping (shared by both createDirs
branches, as in the Go code). -/
def writeFileStep (w1 : World) (path p : String) (content : List Nat) : Res × World :=
  match writeFileFs w1 p content with
  | .error e =>
    if e.kind = .permission then (mcpError ("permission denied: " ++ path), w1)
    else (mcpError e.msg, w1)
  | .ok ns => (mcpSuccess [("path", .str p)], w1.setNodes ns)

/-- Write from fs.go. -/
def Write (w : World) (path : String) (content : List Nat) (createDirs : Bool) : Res × World :=
  if path = "" then (mcpError "path is required", w)
  else if content = [] then (mcpError "content is required", w)
  else
    match ExpandPath w.vars w.home path with
    | .error e => (mcpError e, w)
    | .ok p =>
      if createDirs then
        match mkdirAllFs w (dirPath p) with
        | .error e => (mcpError e.msg, w)
        | .ok ns => writeFileStep (w.setNodes ns) path p content
      else writeFileStep w path p content

/-- The entries collected by the filepath.WalkDir pass of List: every
node strictly below p, with path, base name, type and root-relative path. -/
def walkItems (ns : List (String × Node)) (p : String) : List (List (String × String)) :=
  (ns.filter (fun e => underStr p e.1)).map (fun e =>
    [("path", e.1), ("name", basePath e.1), ("type", itemType e.2),
     ("relative", relPath p e.1)])

/-- The entries collected by the os.ReadDir pass of List: the direct
children of p, with path, base name and type. -/
def readDirItems (ns : List (String × Node)) (p : String) : List (List (String × String)) :=
  (ns.filter (fun e => isDirectChild p e.1)).map (fun e =>
    [("path", e.1), ("name", basePath e.1), ("type", itemType e.2)])

/-- List from fs.go (named ListOp because List is the Lean list type). -/
def ListOp (w : World) (path : String) (recursive : Bool) : Res :=
  if path = "" then mcpError "path is required"
  else
    match ExpandPath w.vars w.home path with
    | .error e => mcpError e
    | .ok p =>
      match statFs w p with
      | .error e =>
        if e.kind = .notExist then mcpError ("directory not found: " ++ path)
        else mcpError e.msg
      | .ok info =>
        if ¬info.isDir then mcpError ("path is not a directory: " ++ path)
        else if recursive then
          if (w.nodes.filter (fun e => underStr p e.1)).any
              (fun e => w.denied.contains e.1) then
            mcpError ("permission denied: " ++ path)
          else
            mcpSuccess [("items", .entries (walkItems w.nodes p)),
              ("count", .int (walkItems w.nodes p).length)]
        else
          if (w.nodes.filter (fun e => isDirectChild p e.1)).any
              (fun e => w.denied.contains e.1) then
            mcpError "lstat: permission denied"
          else
            mcpSuccess [("items", .entries (readDirItems w.nodes p)),
              ("count", .int (readDirItems w.nodes p).length)]

/-- Exists from fs.go (named ExistsOp because Exists is the Lean quantifier). -/
def ExistsOp (w : World) (path : String) : Res :=
  if path = "" then mcpError "path is required"
  else
    match ExpandPath w.vars w.home path with
    | .error e => mcpError e
    | .ok p =>
      match statFs w p with
      | .ok info =>
        mcpSuccess [("exists", .bool true), ("path", .str p), ("type", .str (itemType info)),
          ("is_file", .bool (¬info.isDir)), ("is_dir", .bool info.isDir)]
      | .error e =>
        if e.kind ≠ .notExist then mcpError e.msg
        else mcpSuccess [("exists", .bool false), ("path", .str p)]

/-- Stat from fs.go.  All three time fields come from the node's single
modification-time value, the only timestamp os.FileInfo exposes; the
mode string is the permission bits (Mode().Perm(), the low nine bits)
rendered in octal; is_symlink is always false because os.Stat follows
symbolic links. -/
def Stat (w : World) (path : String) : Res :=
  if path = "" then mcpError "path is required"
  else
    match ExpandPath w.vars w.home path with
    | .error e => mcpError e
    | .ok p =>
      match statFs w p with
      | .error e =>
        if e.kind = .notExist then mcpError ("path not found: " ++ path)
        else mcpError e.msg
      | .ok info =>
        mcpSuccess [("path", .str p), ("name", .str (basePath p)),
          ("type", .str (itemType info)), ("size", .int (info.content.length : Int)),
          ("mode", .str (String.mk (Nat.toDigits 8 (info.mode % 512)))),
          ("modified", .int info.mtime), ("accessed", .int info.mtime),
          ("created", .int info.mtime), ("is_file", .bool (¬info.isDir)),
          ("is_dir", .bool info.isDir), ("is_symlink", .bool false)]

/-- The error translation and success shaping after the os.Mkdir /
os.MkdirAll call in Mkdir (shared by both parents branches, as in the
straight-line Go code). -/
def mkdirStep (w : World) (path p : String)
    (made : Except Err (List (String × Node))) : Res × World :=
  match made with
  | .error e =>
    if e.kind = .permission then (mcpError ("permission denied: " ++ path), w)
    else (mcpError e.msg, w)
  | .ok ns => (mcpSuccess [("path", .str p)], w.setNodes ns)

/-- Mkdir from fs.go. -/
def Mkdir (w : World) (path : String) (parents : Bool) : Res × World :=
  if path = "" then (mcpError "path is required", w)
  else
    match ExpandPath w.vars w.home path with
    | .error e => (mcpError e, w)
    | .ok p =>
      match statFs w p with
      | .ok info =>
        if info.isDir then
          (mcpSuccess [("path", .str p), ("message", .str "directory already exists")], w)
        else (mcpError ("path exists but is not a directory: " ++ path), w)
      | .error _ =>
        if parents then mkdirStep w path p (mkdirAllFs w p)
        else mkdirStep w path p (mkdirFs w p)

/-- Rm from fs.go. -/
def Rm (w : World) (path : String) (recursive : Bool) : Res × World :=
  if path = "" then (mcpError "path is required", w)
  else
    match ExpandPath w.vars w.home path with
    | .error e => (mcpError e, w)
    | .ok p =>
      match statFs w p with
      | .error e =>
        if e.kind = .notExist then (mcpError ("path not found: " ++ path), w)
        else (mcpError e.msg, w)
      | .ok info =>
        if info.isDir then
          if recursive then
            match removeAllFs w p with
            | .error e =>
              if e.kind = .permission then (mcpError ("permission denied: " ++ path), w)
              else (mcpError e.msg, w)
            | .ok ns => (mcpSuccess [("path", .str p)], w.setNodes ns)
          else
            match removeFs w p with
            | .error e =>
              if strContains e.msg "not empty" then
                (mcpError ("directory not empty: " ++ path ++ ". use recursive=true"), w)
              else if e.kind = .permission then
                (mcpError ("permission denied: " ++ path), w)
              else (mcpError e.msg, w)
            | .ok ns => (mcpSuccess [("path", .str p)], w.setNodes ns)
        else
          match removeFs w p with
          | .error e =>
            if e.kind = .permission then (mcpError ("permission denied: " ++ path), w)
            else (mcpError e.msg, w)
          | .ok ns => (mcpSuccess [("path", .str p)], w.setNodes ns)

/-- Mv from fs.go. -/
def Mv (w : World) (source dest : String) : Res × World :=
  if source = "" then (mcpError "source is required", w)
  else if dest = "" then (mcpError "dest is required", w)
  else
    match ExpandPath w.vars w.home source with
    | .error e => (mcpError e, w)
    | .ok src =>
      match ExpandPath w.vars w.home dest with
      | .error e => (mcpError e, w)
      | .ok dst =>
        match statFs w src with
        | .error e =>
          if e.kind = .notExist then (mcpError ("source not found: " ++ source), w)
          else (mcpError e.msg, w)
        | .ok _ =>
          match renameFs w src dst with
          | .error e =>
            if e.kind = .permission then (mcpError ("permission denied: " ++ source), w)
            else (mcpError e.msg, w)
          | .ok ns => (mcpSuccess [("source", .str src), ("dest", .str dst)], w.setNodes ns)

/-- Cp from fs.go. -/
def Cp (w : World) (source dest : String) (recursive : Bool) : Res × World :=
  if source = "" then (mcpError "source is required", w)
  else if dest = "" then (mcpError "dest is required", w)
  else
    match ExpandPath w.vars w.home source with
    | .error e => (mcpError e, w)
    | .ok src =>
      match ExpandPath w.vars w.home dest with
      | .error e => (mcpError e, w)
      | .ok dst =>
        match statFs w src with
        | .error e =>
          if e.kind = .notExist then (mcpError ("source not found: " ++ source), w)
          else (mcpError e.msg, w)
        | .ok info =>
          if info.isDir ∧ ¬recursive then
            (mcpError "source is a directory. use recursive=true", w)
          else
            match copyFs w src dst with
            | .error e =>
              if e.kind = .permission then (mcpError ("permission denied: " ++ source), w)
              else (mcpError e.msg, w)
            | .ok ns => (mcpSuccess [("source", .str src), ("dest", .str dst)], w.setNodes ns)

/-! ### The dispatcher (cmd/fs/main.go) -/

/-- One invocation of the tool: an operation selector plus its parsed
flag values. -/
inductive OpCall where
  | read (path : String)
  | write (path : String) (content : List Nat) (createDirs : Bool)
  | list (path : String) (recursive : Bool)
  | opExists (path : String)
  | stat (path : String)
  | mkdir (path : String) (parents : Bool)
  | rm (path : String) (recursive : Bool)
  | mv (source dest : String)
  | cp (source dest : String) (recursive : Bool)

/-- Dispatch an operation call to its library function. -/
def runOp (w : World) (c : OpCall) : Res × World :=
  match c with
  | .read p => (Read w p, w)
  | .write p content cd => Write w p content cd
  | .list p r => (ListOp w p r, w)
  | .opExists p => (ExistsOp w p, w)
  | .stat p => (Stat w p, w)
  | .mkdir p par => Mkdir w p par
  | .rm p r => Rm w p r
  | .mv s d => Mv w s d
  | .cp s d r => Cp w s d r

/-- getBool from main.go: read a boolean from the result map; a missing
or non-boolean value aborts with mcpFatalError (modelled as none). -/
def getBool (r : Res) (key : String) : Option Bool :=
  match getV r key with
  | some (.bool b) => some b
  | _ => none

/-- The process exit status chosen by main.go: every subcommand except
"exists" exits 1 when the result's success flag is not true (a missing
or non-boolean flag aborts with status 1 via mcpFatalError); the
"exists" subcommand never inspects the result and always returns nil,
so the process exits 0. -/
def exitCode (w : World) (c : OpCall) : Nat :=
  match c with
  | .opExists _ => 0
  | _ =>
    match getBool (runOp w c).1 "success" with
    | some true => 0
    | _ => 1

/-! ### Result-shape lemmas: every operation result is an mcpError or a
well-formed mcpSuccess -/

/-- A result is either exactly an mcpError, or an mcpSuccess whose extra
pairs use neither the "error" nor the "success" key. -/
abbrev ShapeOK (r : Res) : Prop :=
  (∃ m, r = mcpError m) ∨
  (∃ pairs, r = mcpSuccess pairs ∧ "error" ∉ pairs.map Prod.fst ∧
    "success" ∉ pairs.map Prod.fst)

theorem shapeOK_Read (w : World) (p : String) : ShapeOK (Read w p) := by
  unfold Read
  repeat' split
  all_goals first
    | exact Or.inl ⟨_, rfl⟩
    | (refine Or.inr ⟨_, rfl, ?_, ?_⟩ <;> simp)

theorem shapeOK_writeFileStep (w1 : World) (path p : String) (c : List Nat) :
    ShapeOK (writeFileStep w1 path p c).1 := by
  unfold writeFileStep
  repeat' split
  all_goals first
    | exact Or.inl ⟨_, rfl⟩
    | (refine Or.inr ⟨_, rfl, ?_, ?_⟩ <;> simp)

theorem shapeOK_Write (w : World) (p : String) (c : List Nat) (cd : Bool) :
    ShapeOK (Write w p c cd).1 := by
  unfold Write
  repeat' split
  all_goals first
    | exact Or.inl ⟨_, rfl⟩
    | exact shapeOK_writeFileStep ..

theorem shapeOK_ListOp (w : World) (p : String) (rc : Bool) : ShapeOK (ListOp w p rc) := by
  unfold ListOp
  repeat' split
  all_goals first
    | exact Or.inl ⟨_, rfl⟩
    | (refine Or.inr ⟨_, rfl, ?_, ?_⟩ <;> simp)

theorem shapeOK_ExistsOp (w : World) (p : String) : ShapeOK (ExistsOp w p) := by
  unfold ExistsOp
  repeat' split
  all_goals first
    | exact Or.inl ⟨_, rfl⟩
    | (refine Or.inr ⟨_, rfl, ?_, ?_⟩ <;> simp)

theorem shapeOK_Stat (w : World) (p : String) : ShapeOK (Stat w p) := by
  unfold Stat
  repeat' split
  all_goals first
    | exact Or.inl ⟨_, rfl⟩
    | (refine Or.inr ⟨_, rfl, ?_, ?_⟩ <;> simp)

theorem shapeOK_mkdirStep (w : World) (path p : String)
    (made : Except Err (List (String × Node))) : ShapeOK (mkdirStep w path p made).1 := by
  unfold mkdirStep
  repeat' split
  all_goals first
    | exact Or.inl ⟨_, rfl⟩
    | (refine Or.inr ⟨_, rfl, ?_, ?_⟩ <;> simp)

theorem shapeOK_Mkdir (w : World) (p : String) (par : Bool) : ShapeOK (Mkdir w p par).1 := by
  unfold Mkdir
  repeat' split
  all_goals first
    | exact Or.inl ⟨_, rfl⟩
    | exact shapeOK_mkdirStep ..
    | (refine Or.inr ⟨_, rfl, ?_, ?_⟩ <;> simp)

theorem shapeOK_Rm (w : World) (p : String) (rc : Bool) : ShapeOK (Rm w p rc).1 := by
  unfold Rm
  repeat' split
  all_goals first
    | exact Or.inl ⟨_, rfl⟩
    | (refine Or.inr ⟨_, rfl, ?_, ?_⟩ <;> simp)

theorem shapeOK_Mv (w : World) (s d : String) : ShapeOK (Mv w s d).1 := by
  unfold Mv
  repeat' split
  all_goals first
    | exact Or.inl ⟨_, rfl⟩
    | (refine Or.inr ⟨_, rfl, ?_, ?_⟩ <;> simp)

theorem shapeOK_Cp (w : World) (s d : String) (rc : Bool) : ShapeOK (Cp w s d rc).1 := by
  unfold Cp
  repeat' split
  all_goals first
    | exact Or.inl ⟨_, rfl⟩
    | (refine Or.inr ⟨_, rfl, ?_, ?_⟩ <;> simp)

theorem shapeOK_runOp (w : World) (c : OpCall) : ShapeOK (runOp w c).1 := by
  cases c with
  | read p => exact shapeOK_Read w p
  | write p content cd => exact shapeOK_Write w p content cd
  | list p r => exact shapeOK_ListOp w p r
  | opExists p => exact shapeOK_ExistsOp w p
  | stat p => exact shapeOK_Stat w p
  | mkdir p par => exact shapeOK_Mkdir w p par
  | rm p r => exact shapeOK_Rm w p r
  | mv s d => exact shapeOK_Mv w s d
  | cp s d r => exact shapeOK_Cp w s d r

theorem getV_mcpError (m k : String) :
    getV (mcpError m) k = if k = "error" then some (.str m) else
      if k = "success" then some (.bool false) else none := by
  by_cases h1 : k = "error" <;> by_cases h2 : k = "success" <;>
    simp [mcpError, getV, h1, h2, eq_comm]

theorem getV_mcpSuccess_success (pairs : List (String × Value))
    (_ : "success" ∉ pairs.map Prod.fst) :
    getV (mcpSuccess pairs) "success" = some (.bool true) := by
  unfold mcpSuccess getV
  simp

/-- If a key does not occur in a result, getV returns none. -/
theorem getV_not_mem (r : Res) (k : String) (h : k ∉ r.map Prod.fst) : getV r k = none := by
  induction r with
  | nil => rfl
  | cons e rest ih =>
    unfold getV
    simp only [List.map_cons, List.mem_cons] at h
    push_neg at h
    rw [if_neg (fun he => h.1 he.symm)]
    exact ih h.2

/-- The success flag of every operation result is a boolean. -/
theorem runOp_success_bool (w : World) (c : OpCall) :
    ∃ b, getV (runOp w c).1 "success" = some (.bool b) := by
  rcases shapeOK_runOp w c with ⟨m, hm⟩ | ⟨pairs, hp, _, hs⟩
  · exact ⟨false, by rw [hm, getV_mcpError]; simp⟩
  · exact ⟨true, by rw [hp]; exact getV_mcpSuccess_success pairs hs⟩


/-! ### Normal form of cleaned paths -/

/-- A segment kept by the clean pass other than "..": nonempty, not ".",
not "..", and free of separators. -/
def GoodSeg (s : List Char) : Prop :=
  s ≠ [] ∧ s ≠ ['.'] ∧ s ≠ dd ∧ '/' ∉ s

/-- Normal form of the clean stack output: some leading ".." segments
(none when rooted) followed by good segments. -/
def NormalOut (rooted : Bool) (out : List (List Char)) : Prop :=
  ∃ k real, out = List.replicate k dd ++ real ∧ (rooted = true → k = 0) ∧
    ∀ s ∈ real, GoodSeg s

theorem splitSegsA_no_slash (cs : List Char) :
    '/' ∉ (splitSegsA cs).1 ∧ ∀ s ∈ (splitSegsA cs).2, '/' ∉ s := by
  induction cs with
  | nil => exact ⟨by simp [splitSegsA], by simp [splitSegsA]⟩
  | cons c cs ih =>
    by_cases hc : c = '/'
    · refine ⟨by simp [splitSegsA, hc], ?_⟩
      intro s hs
      simp only [splitSegsA, if_pos hc] at hs
      rcases List.mem_cons.mp hs with h | h
      · rw [h]; exact ih.1
      · exact ih.2 s h
    · constructor
      · simp only [splitSegsA, if_neg hc]
        intro hmem
        rcases List.mem_cons.mp hmem with h | h
        · exact hc h.symm
        · exact ih.1 h
      · intro s hs
        simp only [splitSegsA, if_neg hc] at hs
        exact ih.2 s hs

theorem splitSegs_no_slash (cs : List Char) : ∀ s ∈ splitSegs cs, '/' ∉ s := by
  intro s hs
  rw [splitSegs] at hs
  rcases List.mem_cons.mp hs with h | h
  · subst h; exact (splitSegsA_no_slash cs).1
  · exact (splitSegsA_no_slash cs).2 s h

theorem cleanRun_normal (rooted : Bool) (rest : List (List Char))
    (hrest : ∀ s ∈ rest, '/' ∉ s) (acc : List (List Char)) (k : Nat)
    (real : List (List Char)) (hacc : acc = real ++ List.replicate k dd)
    (hk : rooted = true → k = 0) (hreal : ∀ s ∈ real, GoodSeg s) :
    NormalOut rooted (cleanRun rooted acc rest) := by
  induction rest generalizing acc k real with
  | nil =>
    subst hacc
    rw [cleanRun]
    refine ⟨k, real.reverse, ?_, hk, ?_⟩
    · rw [List.reverse_append, List.reverse_replicate]
    · intro s hs
      exact hreal s (List.mem_reverse.mp hs)
  | cons s rest ih =>
    have hrest' : ∀ t ∈ rest, '/' ∉ t := fun t ht => hrest t (List.mem_cons_of_mem _ ht)
    rw [cleanRun]
    split
    · exact ih hrest' acc k real hacc hk hreal
    case isFalse hns =>
      split
      case isTrue hdd =>
        subst hacc
        cases real with
        | nil =>
          rw [List.nil_append]
          cases k with
          | zero =>
            rw [List.replicate_zero]
            have hds : ddStep rooted [] = if rooted then [] else [dd] := rfl
            rw [hds]
            split
            case isTrue hr =>
              exact ih hrest' [] 0 [] rfl (fun _ => rfl)
                (fun t ht => absurd ht (List.not_mem_nil t))
            case isFalse hr =>
              exact ih hrest' [dd] 1 [] (by simp) (fun h1 => absurd h1 hr)
                (fun t ht => absurd ht (List.not_mem_nil t))
          | succ j =>
            rw [List.replicate_succ]
            have hds : ddStep rooted (dd :: List.replicate j dd) = dd :: dd :: List.replicate j dd := by
              simp [ddStep]
            rw [hds]
            refine ih hrest' _ (j + 1 + 1) [] ?_
              (fun h1 => absurd (hk h1) (by simp)) (fun t ht => absurd ht (List.not_mem_nil t))
            simp [List.replicate_succ]
        | cons r0 rs =>
          rw [List.cons_append]
          have hg := hreal r0 (List.mem_cons_self r0 rs)
          have hds : ddStep rooted (r0 :: (rs ++ List.replicate k dd)) =
              rs ++ List.replicate k dd := by
            simp [ddStep, hg.2.2.1]
          rw [hds]
          exact ih hrest' _ k rs rfl hk (fun t ht => hreal t (List.mem_cons_of_mem r0 ht))
      case isFalse hdd =>
        refine ih hrest' (s :: acc) k (s :: real) (by rw [hacc, List.cons_append]) hk ?_
        intro t ht
        rcases List.mem_cons.mp ht with h | h
        · subst h
          push_neg at hns
          exact ⟨hns.1, hns.2, hdd, hrest t (List.mem_cons_self _ _)⟩
        · exact hreal t h

theorem cleanRun_push (rooted : Bool) (l : List (List Char))
    (h : ∀ s ∈ l, s ≠ [] ∧ s ≠ ['.'] ∧ s ≠ dd) (acc : List (List Char)) :
    cleanRun rooted acc l = acc.reverse ++ l := by
  induction l generalizing acc with
  | nil => rw [cleanRun, List.append_nil]
  | cons s l ih =>
    have hs := h s (List.mem_cons_self s l)
    rw [cleanRun, if_neg (not_or.mpr ⟨hs.1, hs.2.1⟩), if_neg hs.2.2,
      ih (fun t ht => h t (List.mem_cons_of_mem s ht)) (s :: acc)]
    simp

theorem cleanRun_dds (real : List (List Char)) (hreal : ∀ s ∈ real, GoodSeg s) :
    ∀ k j, cleanRun false (List.replicate j dd) (List.replicate k dd ++ real) =
      List.replicate (j + k) dd ++ real := by
  intro k
  induction k with
  | zero =>
    intro j
    rw [List.replicate_zero, List.nil_append, Nat.add_zero,
      cleanRun_push false real
        (fun s hs => ⟨(hreal s hs).1, (hreal s hs).2.1, (hreal s hs).2.2.1⟩),
      List.reverse_replicate]
  | succ k ih =>
    intro j
    rw [List.replicate_succ, List.cons_append, cleanRun,
      if_neg (by decide), if_pos rfl]
    cases j with
    | zero =>
      rw [List.replicate_zero]
      have hds : ddStep false [] = [dd] := rfl
      rw [hds]
      have h1 := ih 1
      rw [show (1 : Nat) + k = 0 + (k + 1) from by omega] at h1
      rw [show ([dd] : List (List Char)) = List.replicate 1 dd from rfl]
      exact h1
    | succ i =>
      rw [List.replicate_succ]
      have hds : ddStep false (dd :: List.replicate i dd) = dd :: dd :: List.replicate i dd := by
        simp [ddStep]
      rw [hds]
      have h2 := ih (i + 2)
      rw [show (dd :: dd :: List.replicate i dd) = List.replicate (i + 2) dd from by
        simp [List.replicate_succ]] at *
      rw [show i + 2 + k = i + 1 + (k + 1) from by omega] at h2
      exact h2

theorem cleanRun_fix (rooted : Bool) (out : List (List Char)) (h : NormalOut rooted out) :
    cleanRun rooted [] out = out := by
  obtain ⟨k, real, hout, hk, hreal⟩ := h
  subst hout
  cases rooted with
  | true =>
    rw [hk rfl, List.replicate_zero, List.nil_append,
      cleanRun_push true real
        (fun s hs => ⟨(hreal s hs).1, (hreal s hs).2.1, (hreal s hs).2.2.1⟩)]
    rfl
  | false =>
    have := cleanRun_dds real hreal k 0
    rw [List.replicate_zero] at this
    rw [this, Nat.zero_add]

theorem splitSegs_single (s : List Char) (hs : '/' ∉ s) : splitSegs s = [s] := by
  rw [splitSegs]
  induction s with
  | nil => rfl
  | cons c cs ih =>
    have hc : c ≠ '/' := fun h => hs (h ▸ List.mem_cons_self c cs)
    have ihs := ih (fun h => hs (List.mem_cons_of_mem c h))
    obtain ⟨h1, h2⟩ : (splitSegsA cs).1 = cs ∧ (splitSegsA cs).2 = [] := by simpa using ihs
    simp [splitSegsA, if_neg hc, h1, h2]

theorem splitSegs_sep (s : List Char) (hs : '/' ∉ s) (X : List Char) :
    splitSegs (s ++ '/' :: X) = s :: splitSegs X := by
  induction s with
  | nil =>
    rw [List.nil_append, splitSegs, splitSegs]
    simp [splitSegsA]
  | cons c cs ih =>
    have hc : c ≠ '/' := fun h => hs (h ▸ List.mem_cons_self c cs)
    have ihs := ih (fun h => hs (List.mem_cons_of_mem c h))
    rw [splitSegs] at ihs
    obtain ⟨h1, h2⟩ : (splitSegsA (cs ++ '/' :: X)).1 = cs ∧
        (splitSegsA (cs ++ '/' :: X)).2 = splitSegs X := by simpa using ihs
    rw [List.cons_append, splitSegs]
    simp only [splitSegsA, if_neg hc]
    rw [h1, h2]

theorem splitSegs_join (L : List (List Char)) (hL : ∀ s ∈ L, '/' ∉ s) (h : L ≠ []) :
    splitSegs (joinSegs L) = L := by
  induction L with
  | nil => exact absurd rfl h
  | cons s L ih =>
    cases L with
    | nil => exact splitSegs_single s (hL s (List.mem_cons_self s []))
    | cons t M =>
      have hrec := ih (fun u hu => hL u (List.mem_cons_of_mem s hu)) (List.cons_ne_nil t M)
      rw [joinSegs, splitSegs_sep s (hL s (List.mem_cons_self _ _)) (joinSegs (t :: M)), hrec]
      exact List.cons_ne_nil t M

theorem NormalOut_elem (rooted : Bool) (out : List (List Char)) (h : NormalOut rooted out) :
    ∀ s ∈ out, s ≠ [] ∧ s ≠ ['.'] ∧ '/' ∉ s := by
  obtain ⟨k, real, ho, hk, hreal⟩ := h
  subst ho
  intro s hs
  rcases List.mem_append.mp hs with h | h
  · have hdd := List.eq_of_mem_replicate h
    subst hdd
    exact ⟨by decide, by decide, by decide⟩
  · exact ⟨(hreal s h).1, (hreal s h).2.1, (hreal s h).2.2.2⟩

theorem joinSegs_ne_nil (s0 : List Char) (L : List (List Char)) (h : s0 ≠ []) :
    joinSegs (s0 :: L) ≠ [] := by
  cases L with
  | nil => simpa [joinSegs] using h
  | cons t M =>
    rw [joinSegs]
    · simp
    · exact List.cons_ne_nil t M

theorem joinSegs_head (s0 : List Char) (L : List (List Char)) (h : s0 ≠ []) :
    (joinSegs (s0 :: L)).head? = s0.head? := by
  cases L with
  | nil => rfl
  | cons t M =>
    rw [joinSegs]
    · cases s0 with
      | nil => exact absurd rfl h
      | cons c cs => rfl
    · exact List.cons_ne_nil t M

theorem joinSegs_cases (s0 : List Char) (L : List (List Char)) (h : s0 ≠ []) :
    joinSegs (s0 :: L) = s0 ∨ 2 ≤ (joinSegs (s0 :: L)).length := by
  cases L with
  | nil => exact Or.inl rfl
  | cons t M =>
    right
    rw [joinSegs]
    · rw [List.length_append, List.length_cons]
      cases s0 with
      | nil => exact absurd rfl h
      | cons c cs => simp; omega
    · exact List.cons_ne_nil t M

theorem cleanChars_struct (cs : List Char) :
    cleanChars cs = ['/'] ∨ cleanChars cs = ['.'] ∨
    (∃ out, NormalOut true out ∧ out ≠ [] ∧ cleanChars cs = '/' :: joinSegs out) ∨
    (∃ out, NormalOut false out ∧ out ≠ [] ∧ cleanChars cs = joinSegs out) := by
  by_cases hr : cs.head? = some '/'
  · have hnorm := cleanRun_normal true (splitSegs cs) (splitSegs_no_slash cs) [] 0 [] rfl
      (fun _ => rfl) (fun t ht => absurd ht (List.not_mem_nil t))
    cases hout : cleanRun true [] (splitSegs cs) with
    | nil =>
      left
      simp [cleanChars, hr, hout, joinSegs]
    | cons s L =>
      right; right; left
      exact ⟨s :: L, hout ▸ hnorm, List.cons_ne_nil s L, by simp [cleanChars, hr, hout]⟩
  · have hnorm := cleanRun_normal false (splitSegs cs) (splitSegs_no_slash cs) [] 0 [] rfl
      (fun h => absurd h (by simp)) (fun t ht => absurd ht (List.not_mem_nil t))
    cases hout : cleanRun false [] (splitSegs cs) with
    | nil =>
      right; left
      simp [cleanChars, hr, hout]
    | cons s L =>
      right; right; right
      refine ⟨s :: L, hout ▸ hnorm, List.cons_ne_nil s L, ?_⟩
      simp [cleanChars, hr, hout]

theorem cleanChars_fix (cs : List Char) : cleanChars (cleanChars cs) = cleanChars cs := by
  rcases cleanChars_struct cs with h | h | ⟨out, hn, hne, h⟩ | ⟨out, hn, hne, h⟩
  · rw [h]; decide
  · rw [h]; decide
  · rw [h]
    have hsl : ∀ s ∈ out, '/' ∉ s := fun s hs => (NormalOut_elem true out hn s hs).2.2
    have hsplit : splitSegs ('/' :: joinSegs out) = [] :: out := by
      have hj := splitSegs_join out hsl hne
      rw [splitSegs] at hj ⊢
      simp [splitSegsA, hj]
    have hrun : cleanRun true [] ([] :: out) = out := by
      rw [cleanRun, if_pos (Or.inl rfl)]
      exact cleanRun_fix true out hn
    simp [cleanChars, hsplit, hrun]
  · rw [h]
    cases out with
    | nil => exact absurd rfl hne
    | cons s0 L =>
      have hs0 := NormalOut_elem false _ hn s0 (List.mem_cons_self s0 L)
      have hsl : ∀ s ∈ s0 :: L, '/' ∉ s := fun s hs => (NormalOut_elem false _ hn s hs).2.2
      have hnr : ¬(joinSegs (s0 :: L)).head? = some '/' := by
        rw [joinSegs_head s0 L hs0.1]
        cases s0 with
        | nil => exact absurd rfl hs0.1
        | cons c cs' =>
          simp only [List.head?_cons, Option.some.injEq]
          intro heq
          exact hs0.2.2 (heq ▸ List.mem_cons_self c cs')
      have hsplit := splitSegs_join (s0 :: L) hsl (List.cons_ne_nil s0 L)
      have hrun : cleanRun false [] (s0 :: L) = s0 :: L := cleanRun_fix false _ hn
      simp [cleanChars, hnr, hsplit, hrun]

/-- filepath.Clean is idempotent: the model result is always a fixed
point of the cleaner. -/
theorem clean_fix (p : String) : clean (clean p) = clean p := by
  unfold clean
  rw [show (String.mk (cleanChars p.data)).data = cleanChars p.data from rfl,
    cleanChars_fix]

theorem dropWhile_dds (k : Nat) (real : List (List Char)) (h : ∀ s ∈ real, GoodSeg s) :
    ((List.replicate k dd ++ real).dropWhile (fun s => decide (s = dd))).all
      (fun s => decide (s ≠ dd)) = true := by
  induction k with
  | zero =>
    rw [List.replicate_zero, List.nil_append]
    cases real with
    | nil => rfl
    | cons r0 rs =>
      rw [List.dropWhile_cons, if_neg (by simp [(h r0 (List.mem_cons_self r0 rs)).2.2.1])]
      rw [List.all_eq_true]
      intro s hs
      simp [(h s hs).2.2.1]
  | succ k ih =>
    rw [List.replicate_succ, List.cons_append, List.dropWhile_cons, if_pos (by simp)]
    exact ih

/-- Decidable description of the lexical shape of a cleaned path: either
a root form ("/" or "."), or: every separator-delimited segment is
nonempty (so there are no doubled or trailing separators) and none is
"."; a rooted path (leading empty segment) additionally has no ".."
segments at all; a relative path may carry ".." segments only as a
leading run. -/
def cleanedShape (r : String) : Bool :=
  if r = "/" ∨ r = "." then true
  else if (splitSegs r.data).head? = some [] then
    ((splitSegs r.data).tail.all fun s => decide (s ≠ [] ∧ s ≠ ['.'] ∧ s ≠ dd)) &&
      decide ((splitSegs r.data).tail ≠ [])
  else
    ((splitSegs r.data).all fun s => decide (s ≠ [] ∧ s ≠ ['.'])) &&
      (((splitSegs r.data).dropWhile fun s => decide (s = dd)).all fun s =>
        decide (s ≠ dd)) &&
      decide (splitSegs r.data ≠ [])

theorem cleanedShape_cleanChars (cs : List Char) :
    cleanedShape (String.mk (cleanChars cs)) = true := by
  rcases cleanChars_struct cs with h | h | ⟨out, hn, hne, h⟩ | ⟨out, hn, hne, h⟩
  · rw [h]; decide
  · rw [h]; decide
  · rw [h]
    cases out with
    | nil => exact absurd rfl hne
    | cons s0 L =>
      have hs0 := NormalOut_elem true _ hn s0 (List.mem_cons_self s0 L)
      have hsl : ∀ s ∈ s0 :: L, '/' ∉ s := fun s hs => (NormalOut_elem true _ hn s hs).2.2
      have hjn := joinSegs_ne_nil s0 L hs0.1
      have hroot : ¬(String.mk ('/' :: joinSegs (s0 :: L)) = "/" ∨
          String.mk ('/' :: joinSegs (s0 :: L)) = ".") := by
        rintro (hx | hx) <;> rw [String.ext_iff] at hx <;>
          simp only [String.data] at hx
        · exact hjn (by simpa using hx)
        · simp at hx
      have hsplit : splitSegs (String.mk ('/' :: joinSegs (s0 :: L))).data =
          [] :: s0 :: L := by
        have hj := splitSegs_join (s0 :: L) hsl (List.cons_ne_nil s0 L)
        rw [show (String.mk ('/' :: joinSegs (s0 :: L))).data =
          '/' :: joinSegs (s0 :: L) from rfl]
        rw [splitSegs] at hj ⊢
        simp [splitSegsA, hj]
      unfold cleanedShape
      rw [if_neg hroot, hsplit, if_pos (by rfl), List.tail_cons]
      obtain ⟨k, real, ho, hk, hreal⟩ := hn
      rw [hk rfl, List.replicate_zero, List.nil_append] at ho
      rw [ho]
      simp only [Bool.and_eq_true, List.all_eq_true, decide_eq_true_eq]
      refine ⟨fun s hs => ⟨(hreal s hs).1, (hreal s hs).2.1, (hreal s hs).2.2.1⟩, ?_⟩
      rw [← ho]
      simp
  · rw [h]
    cases out with
    | nil => exact absurd rfl hne
    | cons s0 L =>
      have hs0 := NormalOut_elem false _ hn s0 (List.mem_cons_self s0 L)
      have hsl : ∀ s ∈ s0 :: L, '/' ∉ s := fun s hs => (NormalOut_elem false _ hn s hs).2.2
      have hroot : ¬(String.mk (joinSegs (s0 :: L)) = "/" ∨
          String.mk (joinSegs (s0 :: L)) = ".") := by
        rintro (hx | hx) <;> rw [String.ext_iff] at hx <;>
          simp only [String.data] at hx <;>
          rcases joinSegs_cases s0 L hs0.1 with hc | hc
        · exact hsl s0 (List.mem_cons_self s0 L)
            (by rw [← hc, hx]; exact List.mem_singleton_self '/')
        · rw [hx] at hc; simp at hc
        · exact hs0.2.1 (by rw [← hc, hx])
        · rw [hx] at hc; simp at hc
      have hsplit : splitSegs (String.mk (joinSegs (s0 :: L))).data = s0 :: L := by
        rw [show (String.mk (joinSegs (s0 :: L))).data = joinSegs (s0 :: L) from rfl]
        exact splitSegs_join (s0 :: L) hsl (List.cons_ne_nil s0 L)
      have hhead : ¬(s0 :: L).head? = some ([] : List Char) := by
        cases hs : s0 with
        | nil => exact absurd hs hs0.1
        | cons c cs' => simp
      unfold cleanedShape
      rw [if_neg hroot, hsplit, if_neg hhead]
      simp only [Bool.and_eq_true, List.all_eq_true, decide_eq_true_eq]
      refine ⟨⟨?_, ?_⟩, by simp⟩
      · intro s hs
        have := NormalOut_elem false _ hn s hs
        exact ⟨this.1, this.2.1⟩
      · obtain ⟨k, real, ho, hk, hreal⟩ := hn
        rw [ho]
        have hall := dropWhile_dds k real hreal
        rw [List.all_eq_true] at hall
        intro s hs
        simpa using hall s hs

/-- Every cleaned path has the cleanedShape normal form. -/
theorem cleanedShape_clean (p : String) : cleanedShape (clean p) = true :=
  cleanedShape_cleanChars p.data

/-! ### Expansion lemmas -/

theorem expandCharsF_no_dollar (env : String → String) (fuel : Nat) (cs : List Char)
    (h : '$' ∉ cs) : expandCharsF env fuel cs = cs := by
  induction fuel generalizing cs with
  | zero => cases cs <;> rfl
  | succ fuel ih =>
    cases cs with
    | nil => rfl
    | cons c rest =>
      have hc : c ≠ '$' := fun hx => h (hx ▸ List.mem_cons_self c rest)
      rw [expandCharsF, if_neg (fun hx => hc hx.1),
        ih rest (fun hx => h (List.mem_cons_of_mem c hx))]

theorem expandChars_no_dollar (env : String → String) (cs : List Char) (h : '$' ∉ cs) :
    expandChars env cs = cs :=
  expandCharsF_no_dollar env cs.length cs h

theorem ExpandPath_ok_shape (vars : String → String) (home : Except String String)
    (p r : String) (h : ExpandPath vars home p = .ok r) : ∃ q, r = clean q := by
  unfold ExpandPath at h
  split at h
  · cases home with
    | error e =>
      have h2 : (Except.error ("failed to get home directory: " ++ e) :
          Except String String) = Except.ok r := h
      simp at h2
    | ok hh =>
      have h2 : (if expandEnv vars p = "~" then (Except.ok (clean hh) : Except String String)
          else Except.ok (clean (hh ++ strDrop (expandEnv vars p) 1))) = Except.ok r := h
      split at h2
      · exact ⟨hh, by injection h2 with h1; exact h1.symm⟩
      · exact ⟨hh ++ strDrop (expandEnv vars p) 1, by injection h2 with h1; exact h1.symm⟩
  · exact ⟨expandEnv vars p, by injection h with h1; exact h1.symm⟩

theorem ExpandPath_ok_fixpoint (vars : String → String) (home : Except String String)
    (p r : String) (h : ExpandPath vars home p = .ok r) : clean r = r := by
  obtain ⟨q, hq⟩ := ExpandPath_ok_shape vars home p r h
  rw [hq, clean_fix]

theorem ExpandPath_resolved_fix (vars : String → String) (home : Except String String)
    (r : String) (hd : '$' ∉ r.data) (h1 : r ≠ "~") (h2 : strStartsWith r "~/" = false)
    (hc : clean r = r) : ExpandPath vars home r = .ok r := by
  unfold ExpandPath
  have he : expandEnv vars r = r := by
    unfold expandEnv
    rw [expandChars_no_dollar vars r.data hd]
  rw [he, if_neg (by rw [h2]; simp [h1]), hc]

/-! ### Helper lemmas about the host primitives -/

theorem getV_mcpError_success (m : String) :
    getV (mcpError m) "success" = some (.bool false) := rfl

theorem getV_mcpSuccess (pairs : List (String × Value)) (k : String) :
    getV (mcpSuccess pairs) k =
      if "success" = k then some (.bool true) else getV pairs k := rfl

theorem clean_ne_empty (p : String) : clean p ≠ "" := by
  intro h
  rw [String.ext_iff] at h
  have hd : cleanChars p.data = [] := h
  rcases cleanChars_struct p.data with hx | hx | ⟨out, hn, hne, hx⟩ | ⟨out, hn, hne, hx⟩
  · rw [hx] at hd; exact absurd hd (by simp)
  · rw [hx] at hd; exact absurd hd (by simp)
  · rw [hx] at hd; exact absurd hd (by simp)
  · rw [hx] at hd
    cases out with
    | nil => exact hne rfl
    | cons s0 L =>
      exact joinSegs_ne_nil s0 L (NormalOut_elem false _ hn s0 (List.mem_cons_self s0 L)).1 hd

theorem ExpandPath_ok_ne_empty (vars : String → String) (home : Except String String)
    (p r : String) (h : ExpandPath vars home p = .ok r) : r ≠ "" := by
  obtain ⟨q, hq⟩ := ExpandPath_ok_shape vars home p r h
  rw [hq]
  exact clean_ne_empty q

theorem statFs_ok_cases (w : World) (r : String) (info : Node)
    (h : statFs w r = .ok info) :
    w.denied.contains r = false ∧
    ((isRootish r = true ∧ info = rootNode) ∨
      (isRootish r = false ∧ lookupNode w.nodes r = some info)) := by
  unfold statFs at h
  split at h
  · exact absurd h (by simp)
  case isFalse hden =>
    split at h
    case isTrue hro =>
      refine ⟨by simpa using hden, Or.inl ⟨hro, by injection h with h1; exact h1.symm⟩⟩
    case isFalse hro =>
      split at h
      · refine ⟨by simpa using hden, Or.inr ⟨by simpa using hro, ?_⟩⟩
        rename_i n hn
        rw [hn]
        injection h with h1
        rw [h1]
      · exact absurd h (by simp)

theorem statFs_error_cases (w : World) (r : String) (e : Err)
    (h : statFs w r = .error e) :
    (w.denied.contains r = true ∧
      e = ⟨.permission, "stat " ++ r ++ ": permission denied"⟩) ∨
    (w.denied.contains r = false ∧ isRootish r = false ∧ lookupNode w.nodes r = none ∧
      e = ⟨.notExist, "stat " ++ r ++ ": no such file or directory"⟩) := by
  unfold statFs at h
  split at h
  case isTrue hden =>
    left
    refine ⟨hden, by injection h with h1; exact h1.symm⟩
  case isFalse hden =>
    split at h
    · exact absurd h (by simp)
    case isFalse hro =>
      split at h
      · exact absurd h (by simp)
      case h_2 hn =>
        right
        exact ⟨by simpa using hden, by simpa using hro, hn,
          by injection h with h1; exact h1.symm⟩

theorem writeFileFs_ok (w : World) (p : String) (c : List Nat)
    (ns' : List (String × Node)) (h : writeFileFs w p c = .ok ns') :
    w.denied.contains p = false ∧ isRootish p = false ∧
    ∃ m, ns' = setNode w.nodes p ⟨false, c, m, w.clock⟩ := by
  unfold writeFileFs at h
  split at h
  · exact absurd h (by simp)
  case isFalse hden =>
    split at h
    · exact absurd h (by simp)
    case isFalse hro =>
      refine ⟨by simpa using hden, by simpa using hro, ?_⟩
      split at h
      case h_1 n hn =>
        split at h
        · exact absurd h (by simp)
        · exact ⟨n.mode, by injection h with h1; exact h1.symm⟩
      case h_2 hn =>
        split at h
        · exact ⟨0o644, by injection h with h1; exact h1.symm⟩
        · split at h
          case h_1 dn hdn =>
            split at h
            · exact ⟨0o644, by injection h with h1; exact h1.symm⟩
            · exact absurd h (by simp)
          case h_2 hdn => exact absurd h (by simp)

theorem lookupNode_setNode_self (ns : List (String × Node)) (p : String) (n : Node) :
    lookupNode (setNode ns p n) p = some n := by
  unfold setNode lookupNode
  rw [if_pos rfl]

theorem lookupNode_filter (ns : List (String × Node)) (f : String × Node → Bool)
    (r : String) (h : ∀ n, f (r, n) = false) : lookupNode (ns.filter f) r = none := by
  induction ns with
  | nil => rfl
  | cons e rest ih =>
    rw [List.filter_cons]
    split
    case isTrue hf =>
      rw [lookupNode]
      rw [if_neg ?_]
      · exact ih
      · intro he
        have : f (r, e.2) = true := by
          have he2 : e = (r, e.2) := by
            cases e
            simp_all
          rw [← he2]
          exact hf
        rw [h e.2] at this
        exact absurd this (by simp)
    · exact ih

theorem mkdirAllFuel_ok (denied : List String) (clk : Int) (fuel : Nat)
    (ns : List (String × Node)) (p : String) (ns' : List (String × Node))
    (h : mkdirAllFuel denied clk fuel ns p = .ok ns') :
    ((isRootish p = true ∨ p = "") → ns' = ns) ∧
    (isRootish p = false → p ≠ "" →
      denied.contains p = false ∧ ∃ nd, lookupNode ns' p = some nd ∧ nd.isDir = true) := by
  induction fuel generalizing ns p ns' with
  | zero => exact absurd h (by rw [mkdirAllFuel]; simp)
  | succ fuel ih =>
    rw [mkdirAllFuel] at h
    split at h
    case isTrue hro =>
      constructor
      · intro _; injection h with h1; exact h1.symm
      · intro h1 h2
        rcases hro with hro | hro
        · exact absurd hro (by simp [h1])
        · exact absurd hro h2
    case isFalse hro =>
      push_neg at hro
      split at h
      · exact absurd h (by simp)
      case isFalse hden =>
        constructor
        · intro hx
          rcases hx with hx | hx
          · exact absurd hx (by simp [hro.1])
          · exact absurd hx hro.2
        · intro _ _
          refine ⟨by simpa using hden, ?_⟩
          split at h
          case h_1 n hn =>
            split at h
            case isTrue hdir =>
              injection h with h1
              exact ⟨n, by rw [← h1]; exact hn, hdir⟩
            · exact absurd h (by simp)
          case h_2 hn =>
            split at h
            · exact absurd h (by simp)
            case h_2 ns2 hns2 =>
              injection h with h1
              exact ⟨⟨true, [], 0o755, clk⟩, by rw [← h1]; exact lookupNode_setNode_self ns2 p _,
                rfl⟩

theorem hasInfix_append (a b sub : List Char) (h : hasInfix b sub = true) :
    hasInfix (a ++ b) sub = true := by
  induction a with
  | nil => simpa using h
  | cons c a ih =>
    rw [List.cons_append, hasInfix]
    split
    · rfl
    · exact ih

theorem strContains_not_empty (r : String) :
    strContains ("remove " ++ r ++ ": directory not empty") "not empty" = true := by
  obtain ⟨l⟩ := r
  unfold strContains
  have hd : ("remove " ++ String.mk l ++ ": directory not empty").data =
      "remove ".data ++ (l ++ ": directory not empty".data) := by
    show (String.mk ("remove ".data ++ l) ++ ": directory not empty").data = _
    show ("remove ".data ++ l) ++ ": directory not empty".data = _
    rw [List.append_assoc]
  rw [hd]
  exact hasInfix_append _ _ _ (hasInfix_append l _ _ (by decide))

/-! ### Concrete worlds used by counterexamples and witnesses -/

/-- A plain world: empty environment, a home directory, no files, no
permission restrictions. -/
def w0C : World := ⟨fun _ => "", Except.ok "/home/u", [], [], 100⟩

/-- A world whose environment maps A to the literal "$B" and B to "x";
values of environment variables may themselves contain dollar signs. -/
def envABC : String → String :=
  fun v => if v = "A" then "$B" else if v = "B" then "x" else ""

/-- A world containing the regular file "f". -/
def wFileC : World := ⟨fun _ => "", Except.ok "/h", [("f", ⟨false, [1], 420, 0⟩)], [], 0⟩

/-- A world with a non-empty directory "/d" (containing "/d/f"). -/
def wDirC : World :=
  ⟨fun _ => "", Except.ok "/h",
    [("/d", ⟨true, [], 493, 0⟩), ("/d/f", ⟨false, [104], 420, 5⟩)], [], 9⟩

/-- A world like wDirC in which the host denies access to "/d". -/
def wDenC : World :=
  ⟨fun _ => "", Except.ok "/h",
    [("/d", ⟨true, [], 493, 0⟩), ("/d/f", ⟨false, [104], 420, 5⟩)], ["/d"], 9⟩

/-- A world in which the host denies access to the absent path "/b". -/
def wBlkC : World := ⟨fun _ => "", Except.ok "/h", [], ["/b"], 0⟩

/-- A world with no home directory configured. -/
def wHomeC : World := ⟨fun _ => "", Except.error "$HOME is not defined", [], [], 0⟩

/-! ### The claims -/

/-- C1: for every operation and every input (arguments and host world),
the result mapping satisfies: success=false implies the keys are exactly
error and success, and success=true implies there is no error key. -/
theorem claimC1_result_shape (w : World) (c : OpCall) :
    (getV (runOp w c).1 "success" = some (.bool false) →
      keysOf (runOp w c).1 = ["error", "success"]) ∧
    (getV (runOp w c).1 "success" = some (.bool true) →
      "error" ∉ keysOf (runOp w c).1) := by
  rcases shapeOK_runOp w c with ⟨m, hm⟩ | ⟨pairs, hp, he, hs⟩
  · constructor
    · intro _
      rw [hm]
      rfl
    · intro hfl
      rw [hm, getV_mcpError_success] at hfl
      simp at hfl
  · constructor
    · intro hfl
      rw [hp, getV_mcpSuccess_success pairs hs] at hfl
      simp at hfl
    · intro _
      rw [hp]
      unfold keysOf mcpSuccess
      simp only [List.map_cons, List.mem_cons]
      push_neg
      exact ⟨by simp, fun hmem => he hmem⟩

theorem claimC1_result_shape_witness :
    keysOf (runOp w0C (.read "")).1 = ["error", "success"] :=
  (claimC1_result_shape w0C (.read "")).1 (by decide)

/-- C10: every operation result carries the key success bound to a
boolean value. -/
theorem claimC10_success_key (w : World) (c : OpCall) :
    ∃ b, getV (runOp w c).1 "success" = some (.bool b) :=
  runOp_success_bool w c

theorem exit_iff_aux (w : World) (c : OpCall)
    (hc : exitCode w c = (match getBool (runOp w c).1 "success" with
      | some true => 0 | _ => 1)) :
    (exitCode w c = 0 ↔ getV (runOp w c).1 "success" = some (.bool true)) := by
  obtain ⟨b, hb⟩ := runOp_success_bool w c
  rw [hc]
  unfold getBool
  rw [hb]
  cases b <;> simp

/-- C4 counterexample: the exists subcommand with an empty path prints a
success=false result but the process still exits 0, because the exists
handler in main.go returns nil without inspecting the success flag.  The
claim (and section 6 of the specification) requires a non-zero exit
status whenever success=false with the exists exception limited to
error-free checks, so this input refutes it. -/
theorem claimC4_counterexample :
    exitCode w0C (.opExists "") = 0 ∧
    getV (runOp w0C (.opExists "")).1 "success" = some (.bool false) := by
  constructor <;> rfl

/-- C4 amended: the exit status is 0 exactly when success=true for every
operation except exists; the exists subcommand always exits 0, even when
the check itself errored and the result has success=false. -/
theorem claimC4_amended (w : World) (c : OpCall) :
    (∀ p, c = .opExists p → exitCode w c = 0) ∧
    ((∀ p, c ≠ .opExists p) →
      (exitCode w c = 0 ↔ getV (runOp w c).1 "success" = some (.bool true))) := by
  constructor
  · intro p hp
    subst hp
    rfl
  · intro hne
    cases c <;> first
      | exact absurd rfl (hne _)
      | exact exit_iff_aux w _ rfl

theorem claimC4_amended_witness :
    exitCode w0C (.opExists "") = 0 ∧
    (exitCode w0C (.read "nope") = 0 ↔
      getV (runOp w0C (.read "nope")).1 "success" = some (.bool true)) :=
  ⟨(claimC4_amended w0C (.opExists "")).1 "" rfl,
   (claimC4_amended w0C (.read "nope")).2 (fun _ h => OpCall.noConfusion h)⟩

/-- C3 counterexample: with an environment in which A has the value
"$B" and B has the value "x", resolving "$A" yields "$B", and resolving
that result again yields "x", so resolution is not idempotent; moreover
the input ".." resolves to "..", a cleaned result that still carries a
".." segment.  Both refute the claim as stated. -/
theorem claimC3_counterexample :
    ExpandPath envABC (Except.ok "/h") "$A" = .ok "$B" ∧
    ExpandPath envABC (Except.ok "/h") "$B" = .ok "x" ∧
    ("$B" : String) ≠ "x" ∧
    ExpandPath envABC (Except.ok "/h") ".." = .ok ".." := by
  refine ⟨by decide, by decide, by decide, by decide⟩

/-- C3 amended: every successfully resolved path is lexically cleaned —
it is a fixed point of the cleaner and has the cleaned normal form: no
empty or "." segments, no doubled separators, and ".." segments only as
a leading run of a relative result (a rooted result has none) — and
resolution is idempotent on every resolved path that contains no
dollar sign and no leading home shorthand: resolving such a result
again returns it unchanged. -/
theorem claimC3_amended (vars : String → String) (home : Except String String)
    (p r : String) (h : ExpandPath vars home p = .ok r) :
    cleanedShape r = true ∧ clean r = r ∧
    ('$' ∉ r.data → r ≠ "~" → strStartsWith r "~/" = false →
      ExpandPath vars home r = .ok r) := by
  have hfix := ExpandPath_ok_fixpoint vars home p r h
  obtain ⟨q, hq⟩ := ExpandPath_ok_shape vars home p r h
  refine ⟨?_, hfix, fun hd h1 h2 => ExpandPath_resolved_fix vars home r hd h1 h2 hfix⟩
  rw [hq]
  exact cleanedShape_clean q

theorem claimC3_amended_witness :
    cleanedShape "/h/y" = true ∧ clean "/h/y" = "/h/y" ∧
    ExpandPath (fun _ => "") (Except.ok "/h") "/h/y" = .ok "/h/y" := by
  have h := claimC3_amended (fun _ => "") (Except.ok "/h") "~/x/../y" "/h/y" (by decide)
  exact ⟨h.1, h.2.1, h.2.2 (by decide) (by decide) (by decide)⟩

/-- C2 counterexample: with the byte 255 as content (a non-empty Go
string that is not valid UTF-8), write succeeds but the following read
fails with the UTF-8 validity error, so the round trip does not return
the content.  This refutes the claim for arbitrary non-empty content. -/
theorem claimC2_counterexample :
    getV (Write w0C "/a" [255] true).1 "success" = some (.bool true) ∧
    getV (Read (Write w0C "/a" [255] true).2 "/a") "success" = some (.bool false) := by
  refine ⟨by decide, by decide⟩

/-- C2 amended: whenever write(p, c, true) succeeds and the non-empty
content c is valid UTF-8, the following read(p) succeeds and returns
exactly c in the content field. -/
theorem claimC2_amended (w : World) (P : String) (c : List Nat)
    (hok : getV (Write w P c true).1 "success" = some (.bool true))
    (hutf : utf8Valid c = true) :
    getV (Read (Write w P c true).2 P) "success" = some (.bool true) ∧
    getV (Read (Write w P c true).2 P) "content" = some (.bytes c) := by
  rcases hW : Write w P c true with ⟨r1, w1⟩
  rw [hW] at hok
  simp only at hok ⊢
  unfold Write at hW
  split at hW
  · injection hW with h1 h2
    rw [← h1] at hok
    simp [mcpError, getV] at hok
  case isFalse hP =>
    split at hW
    · injection hW with h1 h2
      rw [← h1] at hok
      simp [mcpError, getV] at hok
    case isFalse hc =>
      split at hW
      case h_1 m hm =>
        injection hW with h1 h2
        rw [← h1] at hok
        simp [mcpError, getV] at hok
      case h_2 p heq =>
        rw [if_pos rfl] at hW
        split at hW
        case h_1 e he =>
          injection hW with h1 h2
          rw [← h1] at hok
          simp [mcpError, getV] at hok
        case h_2 ns2 hns2 =>
          unfold writeFileStep at hW
          split at hW
          case h_1 e he =>
            split at hW <;>
              (injection hW with h1 h2; rw [← h1] at hok; simp [mcpError, getV] at hok)
          case h_2 ns' hns' =>
            injection hW with h1 h2
            obtain ⟨hden, hro, m, hm⟩ :=
              writeFileFs_ok (w.setNodes ns2) p c ns' hns'
            subst h2
            have heq2 : ExpandPath ((w.setNodes ns2).setNodes ns').vars
                ((w.setNodes ns2).setNodes ns').home P = .ok p := heq
            have hden2 : ((w.setNodes ns2).setNodes ns').denied.contains p = false := hden
            have hlook : lookupNode ((w.setNodes ns2).setNodes ns').nodes p =
                some ⟨false, c, m, w.clock⟩ := by
              show lookupNode ns' p = _
              rw [hm]
              exact lookupNode_setNode_self _ p _
            have hstat : statFs ((w.setNodes ns2).setNodes ns') p =
                .ok ⟨false, c, m, w.clock⟩ := by
              unfold statFs
              rw [if_neg (by rw [hden2]; simp), if_neg (by rw [hro]; simp), hlook]
            have hrfs : readFileFs ((w.setNodes ns2).setNodes ns') p = .ok c := by
              unfold readFileFs
              rw [if_neg (by rw [hden2]; simp), if_neg (by rw [hro]; simp), hlook]
              rfl
            have hread : Read ((w.setNodes ns2).setNodes ns') P =
                mcpSuccess [("content", .bytes c)] := by
              unfold Read
              rw [if_neg hP, heq2]
              simp [hstat, hrfs, hutf]
            rw [hread]
            exact ⟨rfl, rfl⟩

theorem claimC2_amended_witness :
    getV (Read (Write w0C "/b" [104, 105] true).2 "/b") "success" = some (.bool true) ∧
    getV (Read (Write w0C "/b" [104, 105] true).2 "/b") "content" =
      some (.bytes [104, 105]) :=
  claimC2_amended w0C "/b" [104, 105] (by decide) (by decide)

/-- C9: for every existing (stat-able) path, the stat success result has
modified, accessed and created all equal to the single modification-time
value the host keeps, and mode is the permission bits (the low nine mode
bits) rendered as an octal string. -/
theorem claimC9_stat_fields (w : World) (P r : String) (n : Node)
    (hp : P ≠ "") (hr : ExpandPath w.vars w.home P = .ok r)
    (hn : statFs w r = .ok n) :
    getV (Stat w P) "modified" = some (.int n.mtime) ∧
    getV (Stat w P) "accessed" = some (.int n.mtime) ∧
    getV (Stat w P) "created" = some (.int n.mtime) ∧
    getV (Stat w P) "mode" = some (.str (String.mk (Nat.toDigits 8 (n.mode % 512)))) := by
  have hs : Stat w P = mcpSuccess [("path", .str r), ("name", .str (basePath r)),
      ("type", .str (itemType n)), ("size", .int (n.content.length : Int)),
      ("mode", .str (String.mk (Nat.toDigits 8 (n.mode % 512)))),
      ("modified", .int n.mtime), ("accessed", .int n.mtime),
      ("created", .int n.mtime), ("is_file", .bool (¬n.isDir)),
      ("is_dir", .bool n.isDir), ("is_symlink", .bool false)] := by
    unfold Stat
    rw [if_neg hp, hr]
    simp [hn]
  rw [hs]
  exact ⟨rfl, rfl, rfl, rfl⟩

theorem claimC9_stat_fields_witness :
    getV (Stat wDirC "/d/f") "modified" = some (.int 5) ∧
    getV (Stat wDirC "/d/f") "accessed" = some (.int 5) ∧
    getV (Stat wDirC "/d/f") "created" = some (.int 5) ∧
    getV (Stat wDirC "/d/f") "mode" = some (.str "644") := by
  have h := claimC9_stat_fields wDirC "/d/f" "/d/f" ⟨false, [104], 420, 5⟩
    (by decide) (by decide) (by decide)
  exact ⟨h.1, h.2.1, h.2.2.1, by rw [h.2.2.2]; decide⟩

/-- C5 counterexample: the path "/b" does not exist on the host, but the
host denies the permission check on it, so the existence check errors
with a non-not-found error and exists returns success=false — refuting
the claim that every non-existing path yields success=true with
exists=false. -/
theorem claimC5_counterexample :
    lookupNode wBlkC.nodes "/b" = none ∧
    getV (ExistsOp wBlkC "/b") "success" = some (.bool false) := by
  refine ⟨by decide, by decide⟩

/-- C5 amended: when the path is non-empty, resolution succeeds and the
existence check reports a not-found error, exists returns success=true
with exists=false and the resolved path; and exists fails exactly when
the path is empty, resolution fails, or the existence check errors with
a non-not-found error. -/
theorem claimC5_amended (w : World) (P r : String) :
    (P ≠ "" → ExpandPath w.vars w.home P = .ok r →
      ∀ e, statFs w r = .error e → e.kind = .notExist →
        ExistsOp w P = mcpSuccess [("exists", .bool false), ("path", .str r)]) ∧
    (getV (ExistsOp w P) "success" = some (.bool false) ↔
      P = "" ∨ (∃ m, ExpandPath w.vars w.home P = .error m) ∨
      ∃ r' e, ExpandPath w.vars w.home P = .ok r' ∧ statFs w r' = .error e ∧
        e.kind ≠ .notExist) := by
  constructor
  · intro hp hr e he hk
    unfold ExistsOp
    rw [if_neg hp, hr]
    simp [he, hk]
  · unfold ExistsOp
    split
    case isTrue hp => exact iff_of_true rfl (Or.inl hp)
    case isFalse hp =>
      split
      case h_1 m hm => exact iff_of_true rfl (Or.inr (Or.inl ⟨m, hm⟩))
      case h_2 r' hr' =>
        split
        case h_1 info hinfo =>
          refine iff_of_false (by simp [mcpSuccess, getV]) ?_
          rintro (h | ⟨m, hm⟩ | ⟨r2, e2, hr2, he2, hk2⟩)
          · exact hp h
          · rw [hm] at hr'
            exact absurd hr' (by simp)
          · rw [hr'] at hr2
            injection hr2 with h3
            subst h3
            rw [hinfo] at he2
            exact absurd he2 (by simp)
        case h_2 e he =>
          split
          case isTrue hk =>
            exact iff_of_true rfl (Or.inr (Or.inr ⟨r', e, hr', he, hk⟩))
          case isFalse hk =>
            refine iff_of_false (by simp [mcpSuccess, getV]) ?_
            rintro (h | ⟨m, hm⟩ | ⟨r2, e2, hr2, he2, hk2⟩)
            · exact hp h
            · rw [hm] at hr'
              exact absurd hr' (by simp)
            · rw [hr'] at hr2
              injection hr2 with h3
              subst h3
              rw [he] at he2
              injection he2 with h4
              rw [← h4] at hk2
              exact hk hk2

theorem claimC5_amended_witness :
    ExistsOp w0C "/nope" = mcpSuccess [("exists", .bool false), ("path", .str "/nope")] :=
  (claimC5_amended w0C "/nope" "/nope").1 (by decide) (by decide)
    ⟨.notExist, "stat /nope: no such file or directory"⟩ (by decide) rfl

/-- The failure condition of read exactly as the claim words it (the
spec side of the comparison): path empty, or the resolved target is
access-denied, does not exist, is a directory, or holds invalid UTF-8
content. -/
def readFailSpec (w : World) (P : String) : Prop :=
  P = "" ∨ ∃ r, ExpandPath w.vars w.home P = .ok r ∧
    (w.denied.contains r = true ∨
     (isRootish r = false ∧ lookupNode w.nodes r = none) ∨
     (isRootish r = true ∨ ∃ n, lookupNode w.nodes r = some n ∧ n.isDir = true) ∨
     ∃ n, lookupNode w.nodes r = some n ∧ n.isDir = false ∧ utf8Valid n.content = false)

/-- C7 counterexample: with no home directory configured, read("~")
fails with a path-resolution error, although the path is non-empty and
none of the five claimed failure conditions holds (they all presuppose a
resolved target).  The claimed "fails exactly when" equivalence is
therefore false. -/
theorem claimC7_counterexample :
    getV (Read wHomeC "~") "success" = some (.bool false) ∧ ¬readFailSpec wHomeC "~" := by
  refine ⟨by decide, ?_⟩
  rintro (h | ⟨r, hr, _⟩)
  · exact absurd h (by decide)
  · rw [show ExpandPath wHomeC.vars wHomeC.home "~" =
      .error "failed to get home directory: $HOME is not defined" from by decide] at hr
    exact absurd hr (by simp)

/-- C7 amended: read("") returns exactly the mapping with success=false
and error "path is required"; read fails exactly when the path is empty,
path resolution fails, or the resolved target is denied, missing, a
directory, or invalid UTF-8; and on an existing readable UTF-8 file the
content field is the full file content. -/
theorem claimC7_amended (w : World) (P : String) :
    Read w "" = mcpError "path is required" ∧
    (getV (Read w P) "success" = some (.bool false) ↔
      readFailSpec w P ∨ ∃ m, ExpandPath w.vars w.home P = .error m) ∧
    (∀ r n, P ≠ "" → ExpandPath w.vars w.home P = .ok r → statFs w r = .ok n →
      n.isDir = false → utf8Valid n.content = true →
      getV (Read w P) "content" = some (.bytes n.content)) := by
  refine ⟨rfl, ?_, ?_⟩
  · unfold Read
    split
    case isTrue hp => exact iff_of_true rfl (Or.inl (Or.inl hp))
    case isFalse hp =>
      split
      case h_1 m hm => exact iff_of_true rfl (Or.inr ⟨m, hm⟩)
      case h_2 r hr =>
        split
        case h_1 e he =>
          rcases statFs_error_cases w r e he with ⟨hden, hee⟩ | ⟨hden, hro, hnone, hee⟩
          · refine iff_of_true ?_ (Or.inl (Or.inr ⟨r, hr, Or.inl hden⟩))
            split <;> rfl
          · refine iff_of_true ?_ (Or.inl (Or.inr ⟨r, hr, Or.inr (Or.inl ⟨hro, hnone⟩)⟩))
            split <;> rfl
        case h_2 info hinfo =>
          obtain ⟨hden, hcases⟩ := statFs_ok_cases w r info hinfo
          split
          case isTrue hdir =>
            refine iff_of_true rfl (Or.inl (Or.inr ⟨r, hr, Or.inr (Or.inr (Or.inl ?_))⟩))
            rcases hcases with ⟨hro, _⟩ | ⟨hro, hlook⟩
            · exact Or.inl hro
            · exact Or.inr ⟨info, hlook, hdir⟩
          case isFalse hdir =>
            rcases hcases with ⟨hro, hinfo2⟩ | ⟨hro, hlook⟩
            · rw [hinfo2] at hdir
              exact absurd rfl hdir
            · have hrfs : readFileFs w r = .ok info.content := by
                unfold readFileFs
                rw [if_neg (by rw [hden]; simp), if_neg (by rw [hro]; simp), hlook]
                simp [hdir]
              split
              case h_1 e2 he2 =>
                rw [hrfs] at he2
                exact absurd he2 (by simp)
              case h_2 data hdata =>
                rw [hrfs] at hdata
                injection hdata with h5
                subst h5
                split
                case isTrue hu =>
                  refine iff_of_true rfl (Or.inl (Or.inr ⟨r, hr,
                    Or.inr (Or.inr (Or.inr ⟨info, hlook, by simpa using hdir,
                      by simpa using hu⟩))⟩))
                case isFalse hu =>
                  refine iff_of_false (by simp [mcpSuccess, getV]) ?_
                  rintro (hs | ⟨m, hm⟩)
                  · rcases hs with h | ⟨r2, hr2, hdisj⟩
                    · exact hp h
                    · rw [hr] at hr2
                      injection hr2 with h6
                      subst h6
                      rcases hdisj with hden2 | ⟨hro2, hnone2⟩ | hdircase | ⟨n2, hl2, hnd2, hu2⟩
                      · rw [hden] at hden2
                        exact absurd hden2 (by simp)
                      · rw [hlook] at hnone2
                        exact absurd hnone2 (by simp)
                      · rcases hdircase with hro2 | ⟨n2, hl2, hd2⟩
                        · rw [hro] at hro2
                          exact absurd hro2 (by simp)
                        · rw [hlook] at hl2
                          injection hl2 with h7
                          rw [← h7] at hd2
                          exact hdir hd2
                      · rw [hlook] at hl2
                        injection hl2 with h7
                        rw [← h7] at hu2
                        exact hu (by simp [hu2])
                  · rw [hr] at hm
                    exact absurd hm (by simp)
  · intro r n hp hr hn hnd hu
    obtain ⟨hden, hc⟩ := statFs_ok_cases w r n hn
    have hro : isRootish r = false ∧ lookupNode w.nodes r = some n := by
      rcases hc with ⟨hro, hrn⟩ | hc
      · exact absurd (hrn ▸ hnd) (by decide)
      · exact hc
    have hrfs : readFileFs w r = .ok n.content := by
      unfold readFileFs
      rw [if_neg (by rw [hden]; simp), if_neg (by rw [hro.1]; simp), hro.2]
      simp [hnd]
    have hread : Read w P = mcpSuccess [("content", .bytes n.content)] := by
      unfold Read
      rw [if_neg hp, hr]
      simp [hn, hnd, hrfs, hu]
    rw [hread]
    rfl

theorem claimC7_amended_witness :
    getV (Read wDirC "/d/f") "content" = some (.bytes [104]) :=
  (claimC7_amended wDirC "/d/f").2.2 "/d/f" ⟨false, [104], 420, 5⟩
    (by decide) (by decide) (by decide) (by decide) (by decide)

/-- C6 counterexample: "f" exists as a regular file, so "f/g" is
initially non-existent, yet mkdir("f/g", true) fails on the first call
because MkdirAll cannot create a directory under a file — refuting the
claim that mkdir(p, true) on an initially non-existent p succeeds both
times. -/
theorem claimC6_counterexample :
    lookupNode wFileC.nodes "f/g" = none ∧
    getV (Mkdir wFileC "f/g" true).1 "success" = some (.bool false) := by
  refine ⟨by decide, by decide⟩

/-- C6 amended: if the stat of the resolved path reports an existing
directory, mkdir succeeds with the message "directory already exists";
if it reports a non-directory, mkdir fails; and whenever mkdir(p, true)
succeeds on a path resolving to a non-denied location, calling
mkdir(p, true) again succeeds, returns that message, and leaves the
world unchanged. -/
theorem claimC6_amended (w : World) (P r : String) (n : Node) (par : Bool) :
    (P ≠ "" → ExpandPath w.vars w.home P = .ok r → statFs w r = .ok n →
      ((n.isDir = true → Mkdir w P par =
          (mcpSuccess [("path", .str r),
            ("message", .str "directory already exists")], w)) ∧
       (n.isDir = false → Mkdir w P par =
          (mcpError ("path exists but is not a directory: " ++ P), w)))) ∧
    (ExpandPath w.vars w.home P = .ok r → w.denied.contains r = false →
      getV (Mkdir w P true).1 "success" = some (.bool true) →
      Mkdir (Mkdir w P true).2 P true =
        (mcpSuccess [("path", .str r), ("message", .str "directory already exists")],
          (Mkdir w P true).2)) := by
  constructor
  · intro hp hr hn
    constructor
    · intro hdir
      unfold Mkdir
      rw [if_neg hp, hr]
      simp [hn, hdir]
    · intro hdir
      unfold Mkdir
      rw [if_neg hp, hr]
      simp [hn, hdir]
  · intro hr hden hok
    have hrne : r ≠ "" := ExpandPath_ok_ne_empty w.vars w.home P r hr
    rcases hM : Mkdir w P true with ⟨r1, w1⟩
    rw [hM] at hok
    simp only at hok ⊢
    have hM2 := hM
    unfold Mkdir at hM
    split at hM
    case isTrue hp =>
      injection hM with h1 h2
      rw [← h1] at hok
      simp [mcpError, getV] at hok
    case isFalse hp =>
      split at hM
      case h_1 m hm =>
        rw [hr] at hm
        exact absurd hm (by simp)
      case h_2 p' hp' =>
        rw [hr] at hp'
        injection hp' with hpr
        subst hpr
        split at hM
        case h_1 info hinfo =>
          split at hM
          case isTrue hdir =>
            injection hM with h1 h2
            subst h2
            rw [hM2, h1]
          case isFalse hdir =>
            injection hM with h1 h2
            rw [← h1] at hok
            simp [mcpError, getV] at hok
        case h_2 e he =>
          rw [if_pos rfl] at hM
          unfold mkdirStep at hM
          split at hM
          case h_1 e2 he2 =>
            split at hM <;>
              (injection hM with h1 h2; rw [← h1] at hok; simp [mcpError, getV] at hok)
          case h_2 ns hns =>
            injection hM with h1 h2
            subst h2
            rcases statFs_error_cases w r e he with ⟨hden2, _⟩ | ⟨_, hrof, _, _⟩
            · rw [hden] at hden2
              exact absurd hden2 (by simp)
            · obtain ⟨_, nd, hlook, hdir⟩ :=
                (mkdirAllFuel_ok w.denied w.clock (r.length + 2) w.nodes r ns hns).2
                  hrof hrne
              have hr2 : ExpandPath (w.setNodes ns).vars (w.setNodes ns).home P =
                  .ok r := hr
              have hlook2 : lookupNode (w.setNodes ns).nodes r = some nd := hlook
              have hstat2 : statFs (w.setNodes ns) r = .ok nd := by
                unfold statFs
                rw [if_neg (by show w.denied.contains r = true → False; rw [hden]; simp),
                  if_neg (by rw [hrof]; simp), hlook2]
              unfold Mkdir
              rw [if_neg hp, hr2]
              simp [hstat2, hdir]

theorem claimC6_amended_witness :
    Mkdir wDirC "/d" false =
      (mcpSuccess [("path", .str "/d"),
        ("message", .str "directory already exists")], wDirC) ∧
    getV (Mkdir (Mkdir w0C "/x" true).2 "/x" true).1 "message" =
      some (.str "directory already exists") := by
  constructor
  · exact ((claimC6_amended wDirC "/d" "/d" ⟨true, [], 493, 0⟩ false).1 (by decide)
      (by decide) (by decide)).1 rfl
  · have h := (claimC6_amended w0C "/x" "/x" rootNode true).2 (by decide) (by decide)
      (by decide)
    rw [h]
    rfl

/-- C8 counterexample: "/d" is an existing non-empty directory, but the
host denies access to it; rm("/d", false) fails with a permission
message that does not contain "not empty", and rm("/d", true) fails and
leaves "/d" in place — refuting both halves of the claim as stated for
arbitrary existing non-empty directories. -/
theorem claimC8_counterexample :
    lookupNode wDenC.nodes "/d" = some ⟨true, [], 493, 0⟩ ∧
    hasChild wDenC.nodes "/d" = true ∧
    getV (Rm wDenC "/d" false).1 "error" = some (.str "stat /d: permission denied") ∧
    strContains "stat /d: permission denied" "not empty" = false ∧
    getV (Rm wDenC "/d" true).1 "success" = some (.bool false) ∧
    lookupNode (Rm wDenC "/d" true).2.nodes "/d" = some ⟨true, [], 493, 0⟩ := by
  refine ⟨by decide, by decide, by decide, by decide, by decide, by decide⟩

/-- C8 amended: for every existing non-empty directory on which the host
reports no permission errors (neither on the directory nor below it),
rm with recursive=false fails with the distinguished "directory not
empty" message and leaves the world unchanged, while rm with
recursive=true succeeds and removes the directory. -/
theorem claimC8_amended (w : World) (P r : String) (n : Node)
    (hp : P ≠ "") (hr : ExpandPath w.vars w.home P = .ok r)
    (hlook : lookupNode w.nodes r = some n) (hdir : n.isDir = true)
    (hchild : hasChild w.nodes r = true)
    (hden : w.denied.contains r = false)
    (hsub : w.denied.any (fun q => underStr r q) = false) :
    Rm w P false =
      (mcpError ("directory not empty: " ++ P ++ ". use recursive=true"), w) ∧
    getV (Rm w P true).1 "success" = some (.bool true) ∧
    lookupNode (Rm w P true).2.nodes r = none := by
  have hstat : ∃ info, statFs w r = .ok info ∧ info.isDir = true := by
    unfold statFs
    rw [if_neg (by rw [hden]; simp)]
    split
    · exact ⟨rootNode, rfl, rfl⟩
    · rw [hlook]
      exact ⟨n, rfl, hdir⟩
  obtain ⟨info, hstat, hidir⟩ := hstat
  have hrm : removeFs w r = .error ⟨.other, "remove " ++ r ++ ": directory not empty"⟩ := by
    unfold removeFs
    rw [if_neg (by rw [hden]; simp), hlook]
    simp [hdir, hchild]
  have hra : removeAllFs w r =
      .ok (w.nodes.filter (fun e => ¬(e.1 = r ∨ underStr r e.1))) := by
    unfold removeAllFs
    rw [if_neg (by rw [hden, hsub]; simp)]
  refine ⟨?_, ?_, ?_⟩
  · unfold Rm
    rw [if_neg hp, hr]
    simp [hstat, hidir, hrm, strContains_not_empty]
  · unfold Rm
    rw [if_neg hp, hr]
    simp [hstat, hidir, hra, mcpSuccess, getV]
  · unfold Rm
    rw [if_neg hp, hr]
    simp only [hstat, hidir, hra]
    exact lookupNode_filter _ _ r (fun nn => by simp)

theorem claimC8_amended_witness :
    getV (Rm wDirC "/d" false).1 "error" =
      some (.str "directory not empty: /d. use recursive=true") ∧
    getV (Rm wDirC "/d" true).1 "success" = some (.bool true) ∧
    lookupNode (Rm wDirC "/d" true).2.nodes "/d" = none := by
  have h := claimC8_amended wDirC "/d" "/d" ⟨true, [], 493, 0⟩ (by decide) (by decide)
    (by decide) (by decide) (by decide) (by decide) (by decide)
  refine ⟨?_, h.2.1, h.2.2⟩
  rw [h.1]
  decide
